import Mathlib

/-- Verification development for the Zutty rendering-delivery and font-resolution
core: a shallow embedding of src/src/renderer.cc and src/src/fontpack.cc.
C strings are modelled as List Char (the NUL terminator is implicit), machine
counters as Nat, and the libc tree walk nftw by its documented POSIX/glibc
contract (with FTW_DEPTH, regular files are reported with flag FTW_F and each
directory is reported post-order, after its contents, with flag FTW_DP). -/
def zuttyCore : Unit := ()

/-- ASCII lowercasing as done by the C library tolower in the POSIX locale,
which underlies strcasecmp and strncasecmp. -/
def lowerc (c : Char) : Char :=
  if 'A' ≤ c ∧ c ≤ 'Z' then Char.ofNat (c.toNat + 32) else c

/-- Zero-result (equality) outcome of strcasecmp on two NUL-terminated strings. -/
def eqCI (a b : List Char) : Bool :=
  a.map lowerc == b.map lowerc

/-- Zero-result (equality) outcome of strncasecmp: compares at most n
characters case-insensitively, stopping early when either string ends. -/
def ncaseEq : List Char → List Char → Nat → Bool
  | _, _, 0 => true
  | [], [], _ + 1 => true
  | [], _ :: _, _ + 1 => false
  | _ :: _, [], _ + 1 => false
  | a :: as, b :: bs, n + 1 => (lowerc a == lowerc b) && ncaseEq as bs n

/-- strncasecmp whose count argument is a C size_t computed by pointer
subtraction: a negative value of n records that the subtraction wrapped around
to a huge unsigned count, which exceeds the length of every string involved,
so the comparison degenerates to a full strcasecmp. -/
def cmpN (m k : List Char) (n : Int) : Bool :=
  if n < 0 then eqCI m k else ncaseEq m k n.toNat

/-- Frame snapshot. Modelled from the spec: frame.h is not part of the source
excerpt; only the fields renderer.cc reads appear here (sequence number,
window pixel size, grid geometry), and a default-constructed Frame carries
sequence number zero, per spec section 4.1. -/
structure Frame where
  seqNo : Nat
  winPx : Nat
  winPy : Nat
  nCols : Nat
  nRows : Nat
deriving DecidableEq

/-- Renderer state shared across threads under the mutex mx (renderer.h):
the running sequence counter, the stored next frame, the termination flag. -/
structure RenderShared where
  seqNo : Nat
  nextFrame : Frame
  done : Bool
deriving DecidableEq

/-- Renderer::update, renderer.cc lines 36 to 44: stores the submitted frame
and stamps it with the pre-incremented sequence counter. -/
def Renderer.update (st : RenderShared) (f : Frame) : RenderShared :=
  { st with nextFrame := { f with seqNo := st.seqNo + 1 }, seqNo := st.seqNo + 1 }

/-- The destructor Renderer::~Renderer, renderer.cc lines 26 to 34: sets done
and performs the final sequence-bumping submission that unblocks the render
thread. -/
def Renderer.dtorSubmit (st : RenderShared) : RenderShared :=
  { st with done := true,
            nextFrame := { st.nextFrame with seqNo := st.seqNo + 1 },
            seqNo := st.seqNo + 1 }

/-- Runs a list of submissions through Renderer.update, collecting the
sequence number assigned to the stored frame by each submission in order. -/
def Renderer.runUpdates : RenderShared → List Frame → RenderShared × List Nat
  | st, [] => (st, [])
  | st, f :: fs =>
      let st1 := Renderer.update st f
      let pr := Renderer.runUpdates st1 fs
      (pr.1, st1.nextFrame.seqNo :: pr.2)

/-- Which cell write a render pass performs: deltaCopyCells (changed cells
only) or copyCells (the full grid), renderer.cc lines 81 to 84. -/
inductive CellWrite where
  | delta
  | full
deriving DecidableEq

/-- Delta selection of one pass of Renderer::renderThread, renderer.cc lines
69 to 84: the flag starts as the strict-adjacency test of line 69, is forced
off by a true result of the external resize call (lines 73 to 74, didResize
is the boolean that call returned), and then selects the cell write (lines 81
to 84). Returns the flag as forwarded to setDeltaFrame (line 87) together
with the cell write performed. -/
def renderPass (lastSeqNo nextSeqNo : Nat) (didResize : Bool) : Bool × CellWrite :=
  let d1 : Bool := lastSeqNo + 1 == nextSeqNo
  let d2 : Bool := if didResize then false else d1
  (d2, if d2 then CellWrite.delta else CellWrite.full)

/-- Action of one wakeup of the render loop: exit on the termination flag, or
a render pass over the stored frame. -/
inductive RenderAction where
  | exit
  | pass (seqNo : Nat)
deriving DecidableEq

/-- One iteration of the render loop, renderer.cc lines 59 to 91: none models
the thread staying blocked in cond.wait because the wait predicate of line 63
(last rendered sequence number differs from the stored one) is false; on a
genuine wakeup the done flag is checked first (lines 66 to 67), otherwise the
pass renders the stored frame. -/
def Renderer.renderStep (lastFrameSeqNo : Nat) (st : RenderShared) : Option RenderAction :=
  if lastFrameSeqNo = st.nextFrame.seqNo then none
  else if st.done then some RenderAction.exit
  else some (RenderAction.pass st.nextFrame.seqNo)

/-- Modelled from the spec: renderer.h is not in the source excerpt; the
member counter seqNo starts at zero and equals the sequence number of the
default-constructed frames (both the stored nextFrame and the render thread's
local lastFrame of renderer.cc line 54), per spec section 4.1, which says the
thread blocks after initialization until the first submission. -/
def Renderer.initShared : RenderShared :=
  { seqNo := 0, nextFrame := { seqNo := 0, winPx := 0, winPy := 0, nCols := 0, nRows := 0 },
    done := false }

/-- Initial sequence number of the render thread's local lastFrame, a
default-constructed Frame (renderer.cc line 54). -/
def lastFrameInitSeqNo : Nat := 0

/-- The four face variants of fontpack.cc. -/
inductive Variant where
  | regular
  | bold
  | italic
  | boldItalic
deriving DecidableEq

/-- SearchState, fontpack.cc lines 22 to 35: the input family name (a C
string plus its length) and the traversal outputs. The C object is a
namespace-scope global (line 36) whose members are value-initialized empty at
program start; sstateInit below is that initial value. -/
structure SearchState where
  fontname : List Char
  fontnamelen : Nat
  level : Nat
  ext : List Char
  regular : List Char
  bold : List Char
  italic : List Char
  boldItalic : List Char
deriving DecidableEq

/-- Value of the global sstate at program start: null family name and empty
outputs, from the default member initializers of fontpack.cc lines 22 to 35. -/
def sstateInit : SearchState :=
  { fontname := [], fontnamelen := 0, level := 0, ext := [],
    regular := [], bold := [], italic := [], boldItalic := [] }

/-- Selects the destination string passed to saveCandidate for a variant
(fontpack.cc lines 124, 131, 142, 150). -/
def setVariantPath (v : Variant) (fpath : List Char) (st : SearchState) : SearchState :=
  match v with
  | Variant.regular => { st with regular := fpath }
  | Variant.bold => { st with bold := fpath }
  | Variant.italic => { st with italic := fpath }
  | Variant.boldItalic => { st with boldItalic := fpath }

/-- Reads the candidate path recorded for a variant. -/
def getVariantPath (v : Variant) (st : SearchState) : List Char :=
  match v with
  | Variant.regular => st.regular
  | Variant.bold => st.bold
  | Variant.italic => st.italic
  | Variant.boldItalic => st.boldItalic

/-- saveCandidate, fontpack.cc lines 38 to 54: if an extension is already
committed (nonempty) and differs from the new candidate's extension, the
candidate is rejected (return 1, state untouched, only a log line); otherwise
the path is stored into the variant's slot and the extension and discovery
level are recorded (return 0). The string comparison of line 43 is the
case-sensitive std::string inequality. -/
def saveCandidate (st : SearchState) (fpath ext : List Char) (level : Nat) (v : Variant) :
    SearchState × Nat :=
  if st.ext ≠ [] ∧ st.ext ≠ ext then (st, 1)
  else ({ setVariantPath v fpath st with ext := ext, level := level }, 0)

/-- Index of the last dot in a string, as strrchr (fontpack.cc line 88). -/
def lastDotIdx : List Char → Option Nat
  | [] => none
  | c :: cs =>
      match lastDotIdx cs with
      | some i => some (i + 1)
      | none => if c = '.' then some 0 else none

/-- The backward pointer walk of fontpack.cc lines 92 to 94: starting from
the dot of a trailing gz suffix, step back at least once, then keep stepping
back until reaching the start of the string or a dot. The argument is the
index the walk starts from. -/
def scanBack (fname : List Char) : Nat → Nat
  | 0 => 0
  | i + 1 =>
      if i = 0 then 0
      else if fname.getD i ' ' = '.' then i
      else scanBack fname i

/-- The string constant gz with a leading dot (fontpack.cc line 91). -/
def dotGz : List Char := ".gz".toList

/-- Extension constant ttf (fontpack.cc line 96). -/
def extTtf : List Char := ".ttf".toList

/-- Extension constant otf (fontpack.cc line 97). -/
def extOtf : List Char := ".otf".toList

/-- Extension constant pcf and gz combined (fontpack.cc line 98). -/
def extPcfGz : List Char := ".pcf.gz".toList

/-- Start index of the extension of a filename, fontpack.cc lines 88 to 94:
the last dot, except that a trailing case-insensitive gz suffix makes the
pointer walk back to the preceding dot (or to the start of the string). The
result is none when the name has no dot at all (line 89). -/
def extStart (fname : List Char) : Option Nat :=
  match lastDotIdx fname with
  | none => none
  | some i =>
      if eqCI (fname.drop i) dotGz = true ∧ 0 < i then some (scanBack fname i)
      else some i

/-- The extension substring a visited file is judged by (from extStart to the
end of the name). -/
def extractExt (fname : List Char) : Option (List Char) :=
  (extStart fname).map (fun i => fname.drop i)

/-- Whether a filename passes the extension filter of fontpack.cc lines 86 to
99: it has an extension that case-insensitively equals ttf, otf or pcf.gz
(each with leading dots). -/
def extAccept (fname : List Char) : Bool :=
  match extStart fname with
  | none => false
  | some extIdx =>
      let ext := fname.drop extIdx
      eqCI ext extTtf || eqCI ext extOtf || eqCI ext extPcfGz

/-- Keyword R (fontpack.cc line 121). -/
def kwR : List Char := "R".toList

/-- Keyword Regular (fontpack.cc line 122). -/
def kwRegular : List Char := "Regular".toList

/-- Keyword B (fontpack.cc line 128). -/
def kwB : List Char := "B".toList

/-- Keyword Bold (fontpack.cc line 129). -/
def kwBold : List Char := "Bold".toList

/-- Keyword I (fontpack.cc line 135). -/
def kwI : List Char := "I".toList

/-- Keyword It (fontpack.cc line 136). -/
def kwIt : List Char := "It".toList

/-- Keyword Italic (fontpack.cc line 137). -/
def kwItalic : List Char := "Italic".toList

/-- Keyword O (fontpack.cc line 138). -/
def kwO : List Char := "O".toList

/-- Keyword Ob (fontpack.cc line 139). -/
def kwOb : List Char := "Ob".toList

/-- Keyword Oblique (fontpack.cc line 140). -/
def kwOblique : List Char := "Oblique".toList

/-- Keyword BI (fontpack.cc line 146). -/
def kwBI : List Char := "BI".toList

/-- Keyword BoldIt (fontpack.cc line 147). -/
def kwBoldIt : List Char := "BoldIt".toList

/-- Keyword BoldItalic (fontpack.cc line 148). -/
def kwBoldItalic : List Char := "BoldItalic".toList

/-- Classification of the mid part, fontpack.cc lines 120 to 153: the if-else
chain of strncasecmp tests against the variant keywords, each bounded by
midlen (which may be a wrapped size_t, see cmpN). Returns the variant whose
branch fires, or none when the file is to be ignored. -/
def classifyMid (mid : List Char) (midlen : Int) : Option Variant :=
  if midlen = 0 ∨ cmpN mid kwR midlen = true ∨ cmpN mid kwRegular midlen = true then
    some Variant.regular
  else if cmpN mid kwB midlen = true ∨ cmpN mid kwBold midlen = true then
    some Variant.bold
  else if cmpN mid kwI midlen = true ∨ cmpN mid kwIt midlen = true ∨
          cmpN mid kwItalic midlen = true ∨ cmpN mid kwO midlen = true ∨
          cmpN mid kwOb midlen = true ∨ cmpN mid kwOblique midlen = true then
    some Variant.italic
  else if cmpN mid kwBI midlen = true ∨ cmpN mid kwBoldIt midlen = true ∨
          cmpN mid kwBoldItalic midlen = true then
    some Variant.boldItalic
  else none

/-- Case-insensitive initial-segment test: every character of m matches the
corresponding character of k case-insensitively (so m is a case-insensitive
abbreviation of k, possibly all of it). Written from the spec claim as
amended, for comparison with the code's classifyMid. -/
def ciAbbrev : List Char → List Char → Bool
  | [], _ => true
  | _ :: _, [] => false
  | a :: as, b :: bs => (lowerc a == lowerc b) && ciAbbrev as bs

/-- Classification as the amended spec claim words it: the branches of the
lexicon are tried in order and a branch fires when the mid part is a
case-insensitive abbreviation (initial segment) of one of its keywords; the
empty mid is an abbreviation of everything, so it lands on Regular. -/
def classifySpecAbbrev (mid : List Char) : Option Variant :=
  if ciAbbrev mid kwR = true ∨ ciAbbrev mid kwRegular = true then
    some Variant.regular
  else if ciAbbrev mid kwB = true ∨ ciAbbrev mid kwBold = true then
    some Variant.bold
  else if ciAbbrev mid kwI = true ∨ ciAbbrev mid kwIt = true ∨
          ciAbbrev mid kwItalic = true ∨ ciAbbrev mid kwO = true ∨
          ciAbbrev mid kwOb = true ∨ ciAbbrev mid kwOblique = true then
    some Variant.italic
  else if ciAbbrev mid kwBI = true ∨ ciAbbrev mid kwBoldIt = true ∨
          ciAbbrev mid kwBoldItalic = true then
    some Variant.boldItalic
  else none

/-- Resetting of all traversal outputs, fontpack.cc lines 73 to 78. -/
def clearResults (st : SearchState) : SearchState :=
  { st with level := 0, ext := [], regular := [], bold := [],
            italic := [], boldItalic := [] }

/-- ftw.h flag FTW_F (glibc value 0): the visited object is a regular file. -/
def ftwF : Nat := 0

/-- ftw.h flag FTW_D (glibc value 1): a directory visited pre-order; nftw
passes it only when FTW_DEPTH is absent from the flags. -/
def ftwD : Nat := 1

/-- ftw.h flag FTW_DP (glibc value 5): a directory whose contents have been
visited; nftw passes it exactly when FTW_DEPTH is in the flags, as it is in
fontpack.cc line 187. -/
def ftwDP : Nat := 5

/-- The NUL byte a C string read finds one past its last character. -/
def nulChar : Char := '\x00'

/-- fontFileFilter, fontpack.cc lines 56 to 173, the nftw callback. fpath is
the full path of the visited object, fname its basename (fpath plus
ftwbuf to base, line 87), tflag the visit flag and level the depth ftwbuf
reports. Returns the updated global state and the int returned to nftw (1
stops the walk). The mid pointer of line 108 is the tail of fname past the
family name, which as a C string runs to the end of the name; midlen (line
109) is a size_t pointer difference and is carried as an Int whose negative
values stand for the wrapped huge counts (see cmpN). -/
def fontFileFilter (st : SearchState) (fpath fname : List Char) (tflag level : Nat) :
    SearchState × Nat :=
  if tflag = ftwD ∧ 0 < st.level ∧ level = st.level - 1 ∧ 0 < st.regular.length then
    (st, 1)
  else if tflag = ftwD ∧ 0 < st.level then
    (clearResults st, 0)
  else if tflag ≠ ftwF then
    (st, 0)
  else
    match extStart fname with
    | none => (st, 0)
    | some extIdx =>
      let ext := fname.drop extIdx
      if ¬ (eqCI ext extTtf = true ∨ eqCI ext extOtf = true ∨ eqCI ext extPcfGz = true) then
        (st, 0)
      else if ¬ (ncaseEq fname st.fontname st.fontnamelen = true) then
        (st, 0)
      else
        let mid0 := fname.drop st.fontnamelen
        let midlen0 : Int := (extIdx : Int) - (st.fontnamelen : Int)
        let sep : Bool :=
          decide (midlen0 ≠ 0) &&
            (mid0.headD nulChar == '-' || mid0.headD nulChar == '_' ||
             mid0.headD nulChar == ' ')
        let mid := if sep then mid0.tail else mid0
        let midlen := if sep then midlen0 - 1 else midlen0
        match classifyMid mid midlen with
        | some v => ((saveCandidate st fpath ext level v).1, 0)
        | none => (st, 0)

mutual
/-- A file tree, as walked by nftw: regular files and directories. -/
inductive FSTree where
  | file : List Char → FSTree
  | dir : List Char → FSForest → FSTree
/-- The ordered entries of a directory. -/
inductive FSForest where
  | nil : FSForest
  | cons : FSTree → FSForest → FSForest
end

/-- Joins a parent path and an entry name with a slash; the root keeps its
bare name, as nftw is handed the search root path itself. -/
def pathJoin (parent name : List Char) : List Char :=
  if parent = [] then name else parent ++ '/' :: name

mutual
/-- The sequence of callback invocations nftw performs with FTW_DEPTH: every
regular file with flag FTW_F at its depth, and every directory post-order
(after all its contents) with flag FTW_DP; the root is at depth 0. -/
def ftwEvents (parent : List Char) (level : Nat) : FSTree → List (List Char × List Char × Nat × Nat)
  | FSTree.file name => [(pathJoin parent name, name, ftwF, level)]
  | FSTree.dir name entries =>
      ftwForestEvents (pathJoin parent name) (level + 1) entries ++
        [(pathJoin parent name, name, ftwDP, level)]
/-- Events of a directory's entries, in order. -/
def ftwForestEvents (parent : List Char) (level : Nat) : FSForest → List (List Char × List Char × Nat × Nat)
  | FSForest.nil => []
  | FSForest.cons t ts => ftwEvents parent level t ++ ftwForestEvents parent level ts
end

/-- Feeds a list of nftw events through fontFileFilter, stopping as soon as
the callback returns nonzero, as nftw does; returns the final state and the
nftw return value (0 when the walk ran to completion). -/
def runEvents (st : SearchState) : List (List Char × List Char × Nat × Nat) → SearchState × Nat
  | [] => (st, 0)
  | (fpath, fname, tflag, level) :: es =>
      let pr := fontFileFilter st fpath fname tflag level
      if pr.2 = 0 then runEvents pr.1 es else pr

/-- The nftw call of fontpack.cc line 188: depth-first walk of the tree
rooted at the search path, flags FTW_DEPTH, callback fontFileFilter. -/
def nftwWalk (st : SearchState) (root : FSTree) : SearchState × Nat :=
  runEvents st (ftwEvents [] 0 root)

/-- The resolved font set, fontpack.h as used in fontpack.cc lines 201 to
213: the Regular path (mandatory) and the optional Bold, Italic and
BoldItalic paths. -/
structure FontSet where
  regular : List Char
  bold : Option (List Char)
  italic : Option (List Char)
  boldItalic : Option (List Char)
deriving DecidableEq

/-- The error message of the exception thrown at fontpack.cc lines 197 to
198, which names the requested family. -/
def noFontErrMsg (fontname : List Char) : List Char :=
  "No suitable files for '".toList ++ fontname ++ "' found!".toList

/-- Entry assignments of the Fontpack constructor, fontpack.cc lines 184 to
185: the global gets the requested family name and its length; nothing else
of the global is touched before the walk. -/
def Fontpack.ctorEntry (st : SearchState) (fontname : List Char) : SearchState :=
  { st with fontname := fontname, fontnamelen := fontname.length }

/-- Fontpack::Fontpack, fontpack.cc lines 178 to 214: set the family name
into the global state, walk the tree, throw (error) when no Regular candidate
is present afterwards, otherwise build the font set with the optional
variants present exactly when their candidate paths are nonempty. The
returned SearchState is the global as the constructor leaves it. -/
def Fontpack.ctor (st : SearchState) (fontname : List Char) (tree : FSTree) :
    SearchState × Except (List Char) FontSet :=
  let st2 := (nftwWalk (Fontpack.ctorEntry st fontname) tree).1
  if st2.regular.length = 0 then
    (st2, Except.error (noFontErrMsg fontname))
  else
    (st2, Except.ok
      { regular := st2.regular
      , bold := if st2.bold.length ≠ 0 then some st2.bold else none
      , italic := if st2.italic.length ≠ 0 then some st2.italic else none
      , boldItalic := if st2.boldItalic.length ≠ 0 then some st2.boldItalic else none })

/-- Family name constant Foo of the concrete scenarios. -/
def fooName : List Char := "Foo".toList

/-- Family name constant Bar of the concrete scenarios. -/
def barName : List Char := "Bar".toList

/-- Family name constant Go of the concrete scenarios. -/
def goName : List Char := "Go".toList

/-- Global state right after the constructor entry for family Go on a fresh
program. -/
def stGo : SearchState := Fontpack.ctorEntry sstateInit goName

/-- Global state right after the constructor entry for family Foo on a fresh
program. -/
def stFoo : SearchState := Fontpack.ctorEntry sstateInit fooName

/-- Basename of the concrete file Go-Reg.ttf. -/
def goRegAbbrevName : List Char := "Go-Reg.ttf".toList

/-- Full path of the concrete file Go-Reg.ttf. -/
def goRegAbbrevPath : List Char := "fonts/Go-Reg.ttf".toList

/-- The mid part Reg of the name Go-Reg.ttf. -/
def midReg : List Char := "Reg".toList

/-- Directory name constant fonts. -/
def nameFonts : List Char := "fonts".toList

/-- Directory name constant a. -/
def nameA : List Char := "a".toList

/-- Directory name constant b. -/
def nameB : List Char := "b".toList

/-- Directory name constant p. -/
def nameP : List Char := "p".toList

/-- Directory name constant q. -/
def nameQ : List Char := "q".toList

/-- Directory name constant other. -/
def nameOther : List Char := "other".toList

/-- File name constant Foo-Regular.ttf. -/
def fileFooRegularTtf : List Char := "Foo-Regular.ttf".toList

/-- File name constant Foo-R.ttf. -/
def fileFooRTtf : List Char := "Foo-R.ttf".toList

/-- File name constant Foo-Bold.ttf. -/
def fileFooBoldTtf : List Char := "Foo-Bold.ttf".toList

/-- Tree fonts containing subdirectory a with Foo-Regular.ttf followed by
sibling subdirectory b with Foo-R.ttf. -/
def treeStopCase : FSTree :=
  FSTree.dir nameFonts (FSForest.cons
    (FSTree.dir nameA (FSForest.cons (FSTree.file fileFooRegularTtf) FSForest.nil))
    (FSForest.cons
      (FSTree.dir nameB (FSForest.cons (FSTree.file fileFooRTtf) FSForest.nil))
      FSForest.nil))

/-- Path of Foo-Regular.ttf inside fonts slash a. -/
def pathARegular : List Char := "fonts/a/Foo-Regular.ttf".toList

/-- Path of directory a inside fonts. -/
def pathDirA : List Char := "fonts/a".toList

/-- Path of Foo-R.ttf inside fonts slash b. -/
def pathBR : List Char := "fonts/b/Foo-R.ttf".toList

/-- Tree fonts containing subdirectory p with only Foo-Bold.ttf (no Regular
anywhere under p) followed by sibling subdirectory q with Foo-Regular.ttf. -/
def treeDiscardCase : FSTree :=
  FSTree.dir nameFonts (FSForest.cons
    (FSTree.dir nameP (FSForest.cons (FSTree.file fileFooBoldTtf) FSForest.nil))
    (FSForest.cons
      (FSTree.dir nameQ (FSForest.cons (FSTree.file fileFooRegularTtf) FSForest.nil))
      FSForest.nil))

/-- Path of Foo-Bold.ttf inside fonts slash p. -/
def pathPBold : List Char := "fonts/p/Foo-Bold.ttf".toList

/-- Path of Foo-Regular.ttf inside fonts slash q. -/
def pathQRegular : List Char := "fonts/q/Foo-Regular.ttf".toList

/-- Tree fonts containing only Foo-Regular.ttf. -/
def treeFooOnly : FSTree :=
  FSTree.dir nameFonts (FSForest.cons (FSTree.file fileFooRegularTtf) FSForest.nil)

/-- Path of Foo-Regular.ttf directly inside fonts. -/
def pathFontsFooRegular : List Char := "fonts/Foo-Regular.ttf".toList

/-- Tree consisting of one empty directory named other, containing no files
at all. -/
def treeOtherEmpty : FSTree := FSTree.dir nameOther FSForest.nil

/-- A traversal state in which the extension ttf is already committed by a
recorded Regular candidate, while no Bold candidate exists yet. -/
def stCommittedTtf : SearchState :=
  { stGo with ext := extTtf, regular := pathFontsFooRegular, level := 1 }

/-- Path constant of a Bold candidate with the conflicting extension otf. -/
def pathGoBoldOtf : List Char := "fonts/Go-Bold.otf".toList

/-- Name part constant Go-Regular (no extension). -/
def baseGoRegular : List Char := "Go-Regular".toList

/-- Extension body constant ttf (no dot). -/
def bodyTtf : List Char := "ttf".toList

/-- Extension body constant pcf (no dot). -/
def bodyPcf : List Char := "pcf".toList

/-- Suffix constant gz in lowercase (no dot). -/
def bodyGz : List Char := "gz".toList

/-- File name constant x.xyz, whose extension passes no filter. -/
def nameBadExt : List Char := "x.xyz".toList

/-- C1: in every render pass, delta rendering is chosen if and only if the
sequence number of the frame being rendered is exactly one more than the
previously rendered sequence number and the resize call reported no actual
dimension change; in every other case the full grid is written. -/
theorem renderPass_delta_iff (lastSeqNo nextSeqNo : Nat) (didResize : Bool) :
    ((renderPass lastSeqNo nextSeqNo didResize).2 = CellWrite.delta ↔
        (nextSeqNo = lastSeqNo + 1 ∧ didResize = false)) ∧
    ((renderPass lastSeqNo nextSeqNo didResize).2 = CellWrite.full ↔
        ¬ (nextSeqNo = lastSeqNo + 1 ∧ didResize = false)) ∧
    ((renderPass lastSeqNo nextSeqNo didResize).1 = true ↔
        (nextSeqNo = lastSeqNo + 1 ∧ didResize = false)) := by
  cases didResize with
  | false =>
      by_cases h : nextSeqNo = lastSeqNo + 1
      · have hb : (lastSeqNo + 1 == nextSeqNo) = true := by simp [h]
        simp [renderPass, hb, h]
      · have hb : (lastSeqNo + 1 == nextSeqNo) = false := by
          simp only [beq_eq_false_iff_ne, ne_eq]
          omega
        simp [renderPass, hb, h]
  | true => simp [renderPass]

/-- C2: for every sequence of submissions followed by destruction, the
sequence numbers assigned to the stored frames are the consecutive successors
of the counter at the start (they strictly increase by exactly one per
submission), and the shutdown submission of the destructor increments the
counter by exactly one more. -/
theorem submit_seqNos_strictly_increase (st : RenderShared) (fs : List Frame) :
    (Renderer.runUpdates st fs).2 =
        (List.range fs.length).map (fun i => st.seqNo + 1 + i) ∧
    (Renderer.runUpdates st fs).1.seqNo = st.seqNo + fs.length ∧
    (Renderer.dtorSubmit (Renderer.runUpdates st fs).1).nextFrame.seqNo =
        (Renderer.runUpdates st fs).1.seqNo + 1 ∧
    (Renderer.dtorSubmit (Renderer.runUpdates st fs).1).seqNo =
        (Renderer.runUpdates st fs).1.seqNo + 1 := by
  have hshift : ∀ s n : Nat, (List.range (n + 1)).map (fun i => s + 1 + i) =
      (s + 1) :: (List.range n).map (fun i => s + 1 + 1 + i) := by
    intro s n
    rw [List.range_succ_eq_map, List.map_cons, List.map_map]
    refine congrArg₂ List.cons (by simp) ?_
    congr 1
    funext i
    simp only [Function.comp_apply]
    omega
  induction fs generalizing st with
  | nil => simp [Renderer.runUpdates, Renderer.dtorSubmit]
  | cons f fs ih =>
      obtain ⟨ih1, ih2, ih3, ih4⟩ := ih (Renderer.update st f)
      have hupd : (Renderer.update st f).seqNo = st.seqNo + 1 := rfl
      have hnf : (Renderer.update st f).nextFrame.seqNo = st.seqNo + 1 := rfl
      refine ⟨?_, ?_, ?_, ?_⟩
      · simp only [Renderer.runUpdates]
        rw [ih1]
        simp only [hnf, hupd, List.length_cons]
        rw [hshift]
      · simp only [Renderer.runUpdates]
        rw [ih2, hupd, List.length_cons]
        omega
      · simpa only [Renderer.runUpdates] using ih3
      · simpa only [Renderer.runUpdates] using ih4

/-- C10: before the first submission the render thread stays blocked in its
wait (so it performs no draw and no buffer swap): the wait predicate compares
the last-rendered sequence number with the stored one and both start equal,
and the block lasts until an update (or the destructor's final bump) changes
the stored sequence number. -/
theorem renderThread_blocks_before_first_submit :
    Renderer.renderStep lastFrameInitSeqNo Renderer.initShared = none ∧
    lastFrameInitSeqNo = Renderer.initShared.nextFrame.seqNo ∧
    (∀ f : Frame,
      Renderer.renderStep lastFrameInitSeqNo (Renderer.update Renderer.initShared f) =
        some (RenderAction.pass (Renderer.initShared.seqNo + 1))) ∧
    Renderer.renderStep lastFrameInitSeqNo (Renderer.dtorSubmit Renderer.initShared) =
        some RenderAction.exit := by
  refine ⟨rfl, rfl, ?_, rfl⟩
  intro f
  rfl

/-- strncasecmp bounded by exactly the length of its first argument is the
case-insensitive initial-segment test against the second argument. -/
theorem ncaseEq_self_length (m : List Char) : ∀ k, ncaseEq m k m.length = ciAbbrev m k := by
  induction m with
  | nil => intro k; cases k <;> rfl
  | cons a as ih =>
      intro k
      cases k with
      | nil => rfl
      | cons b bs => simp [ncaseEq, ciAbbrev, ih]

/-- cmpN at the exact (non-wrapped) length of its first argument is the
case-insensitive initial-segment test. -/
theorem cmpN_natLen (m k : List Char) : cmpN m k (m.length : Int) = ciAbbrev m k := by
  unfold cmpN
  rw [if_neg (by omega : ¬ ((m.length : Int) < 0))]
  have h : ((m.length : Int)).toNat = m.length := by omega
  rw [h]
  exact ncaseEq_self_length m k

/-- C7 (amended): the mid part is classified case-insensitively by
abbreviation, not by exact lexicon membership: a branch fires when mid is a
case-insensitive initial segment of one of its keywords (Regular branch for
the empty mid and initial segments of R or Regular, then Bold for B or Bold,
then Italic for I, It, Italic, O, Ob or Oblique, then BoldItalic for BI,
BoldIt or BoldItalic, branches tried in that order), and a mid that starts no
keyword causes the file to be ignored without error. -/
theorem classifyMid_matches_abbrev_lexicon (m : List Char) :
    classifyMid m (m.length : Int) = classifySpecAbbrev m := by
  cases m with
  | nil => decide
  | cons a as =>
      have hne : ¬ (((a :: as).length : Int) = 0) := by
        simp only [List.length_cons]
        omega
      simp only [classifyMid, classifySpecAbbrev, cmpN_natLen, hne, false_or]

/-- C7 counterexample: the file Go-Reg.ttf for family Go passes the filters
with mid part Reg, which differs case-insensitively from every value of the
fixed lexicon of the claim, yet the file is not ignored: the filter records
it as the Regular candidate. -/
theorem fileWithAbbrevMid_isRecorded :
    (fontFileFilter stGo goRegAbbrevPath goRegAbbrevName ftwF 1).1.regular = goRegAbbrevPath ∧
    (fontFileFilter stGo goRegAbbrevPath goRegAbbrevName ftwF 1).2 = 0 ∧
    stGo.regular = [] ∧
    midReg ≠ [] ∧ eqCI midReg kwR = false ∧ eqCI midReg kwRegular = false ∧
    eqCI midReg kwB = false ∧ eqCI midReg kwBold = false ∧
    eqCI midReg kwI = false ∧ eqCI midReg kwIt = false ∧ eqCI midReg kwItalic = false ∧
    eqCI midReg kwO = false ∧ eqCI midReg kwOb = false ∧ eqCI midReg kwOblique = false ∧
    eqCI midReg kwBI = false ∧ eqCI midReg kwBoldIt = false ∧
    eqCI midReg kwBoldItalic = false := by
  decide

/-- Reading back the variant slot just written yields the written path. -/
theorem getVariantPath_set_same (v : Variant) (p : List Char) (st : SearchState) :
    getVariantPath v (setVariantPath v p st) = p := by
  cases v <;> rfl

/-- Writing one variant slot leaves every other variant slot unchanged. -/
theorem getVariantPath_set_other (v w : Variant) (p : List Char) (st : SearchState)
    (h : w ≠ v) : getVariantPath w (setVariantPath v p st) = getVariantPath w st := by
  cases v <;> cases w <;> simp_all [getVariantPath, setVariantPath]

/-- Updating the ext and level fields does not touch the variant slots. -/
theorem getVariantPath_extLevel (w : Variant) (st : SearchState) (e : List Char) (l : Nat) :
    getVariantPath w { st with ext := e, level := l } = getVariantPath w st := by
  cases w <;> rfl

/-- C6: when a classified font file is about to be recorded: if an extension
is already committed in this pass and the new candidate's extension differs
from it, the new candidate is rejected non-fatally (return code 1) and the
existing state, in particular any existing candidate of that variant, is kept
unchanged; otherwise the candidate's path, extension and discovery depth are
recorded, overwriting any previous candidate of that variant and touching no
other variant. -/
theorem saveCandidate_extension_gate (st : SearchState) (fpath ext : List Char)
    (level : Nat) (v : Variant) :
    (st.ext ≠ [] ∧ st.ext ≠ ext →
      saveCandidate st fpath ext level v = (st, 1)) ∧
    (st.ext = [] ∨ st.ext = ext →
      (saveCandidate st fpath ext level v).2 = 0 ∧
      getVariantPath v (saveCandidate st fpath ext level v).1 = fpath ∧
      (saveCandidate st fpath ext level v).1.ext = ext ∧
      (saveCandidate st fpath ext level v).1.level = level ∧
      ∀ w, w ≠ v →
        getVariantPath w (saveCandidate st fpath ext level v).1 = getVariantPath w st) := by
  constructor
  · intro h
    unfold saveCandidate
    rw [if_pos h]
  · intro h
    have hcond : ¬ (st.ext ≠ [] ∧ st.ext ≠ ext) := by
      rcases h with h | h <;> simp [h]
    unfold saveCandidate
    rw [if_neg hcond]
    refine ⟨rfl, ?_, rfl, rfl, ?_⟩
    · rw [getVariantPath_extLevel]
      exact getVariantPath_set_same v fpath st
    · intro w hw
      rw [getVariantPath_extLevel]
      exact getVariantPath_set_other v w fpath st hw

/-- C6 witness: with the extension ttf committed and no Bold candidate
present, the Bold candidate Go-Bold.otf is rejected with the state kept; from
the state where nothing is committed yet, the same candidate is recorded. -/
theorem saveCandidate_extension_gate_witness :
    saveCandidate stCommittedTtf pathGoBoldOtf extOtf 1 Variant.bold = (stCommittedTtf, 1) ∧
    (saveCandidate stGo pathGoBoldOtf extOtf 1 Variant.bold).2 = 0 := by
  constructor
  · exact (saveCandidate_extension_gate stCommittedTtf pathGoBoldOtf extOtf 1 Variant.bold).1
      ⟨by decide, by decide⟩
  · exact ((saveCandidate_extension_gate stGo pathGoBoldOtf extOtf 1 Variant.bold).2
      (Or.inl (by decide))).1

/-- C5: the constructor raises the resolution error, which names the family,
if and only if no Regular candidate is retained after the walk; otherwise it
returns a FontSet whose Regular path is the retained, nonempty one. -/
theorem resolve_fails_iff_no_regular (st : SearchState) (fn : List Char) (tree : FSTree) :
    ((Fontpack.ctor st fn tree).2 = Except.error (noFontErrMsg fn) ↔
      (Fontpack.ctor st fn tree).1.regular = []) ∧
    ((Fontpack.ctor st fn tree).2 = Except.error (noFontErrMsg fn) ∨
      ∃ fs, (Fontpack.ctor st fn tree).2 = Except.ok fs ∧
        fs.regular = (Fontpack.ctor st fn tree).1.regular ∧
        (Fontpack.ctor st fn tree).1.regular ≠ []) := by
  simp only [Fontpack.ctor]
  generalize (nftwWalk (Fontpack.ctorEntry st fn) tree).1 = s2
  by_cases h : s2.regular.length = 0
  · have hreg : s2.regular = [] := List.length_eq_zero.mp h
    rw [if_pos h]
    exact ⟨by simp [hreg], Or.inl rfl⟩
  · have hreg : s2.regular ≠ [] := fun hr => h (by simp [hr])
    rw [if_neg h]
    constructor
    · simp [hreg]
    · exact Or.inr ⟨_, rfl, rfl, hreg⟩

/-- C3: evaluation of the code at the failing input. After the first two
nftw events of the walk of treeStopCase (the file under directory a, then the
post-order finish of directory a at depth 1), a Regular candidate is recorded
at depth 2, exactly one greater, so per the claim the traversal must stop
with success there and the sibling directory b must never be visited. The
callback instead returns 0 at the directory-finish event (its stop branch
tests FTW_D, which nftw with FTW_DEPTH never delivers, reporting finished
directories as FTW_DP), the walk runs to completion, and the file under b
overwrites the Regular candidate. -/
theorem traversal_not_stopped_at_dir_finish :
    (runEvents stFoo ((ftwEvents [] 0 treeStopCase).take 2)).1.regular = pathARegular ∧
    (runEvents stFoo ((ftwEvents [] 0 treeStopCase).take 2)).1.level = 2 ∧
    (runEvents stFoo ((ftwEvents [] 0 treeStopCase).take 2)).2 = 0 ∧
    ((ftwEvents [] 0 treeStopCase).take 2).getLast? =
      some (pathDirA, nameA, ftwDP, 1) ∧
    (nftwWalk stFoo treeStopCase).2 = 0 ∧
    (nftwWalk stFoo treeStopCase).1.regular = pathBR ∧
    pathBR ≠ pathARegular := by
  decide

/-- C4: evaluation of the code at the failing input. Directory p holds only
Foo-Bold.ttf and no Regular anywhere beneath it, so per the claim all
candidates recorded under p are discarded together when p finishes; the
discard branch of the callback tests FTW_D, which nftw with FTW_DEPTH never
delivers, so the Bold candidate from p persists and the returned FontSet
pairs it with the Regular found in the unrelated sibling directory q. -/
theorem partial_subtree_candidates_persist :
    (Fontpack.ctor sstateInit fooName treeDiscardCase).2 =
      Except.ok { regular := pathQRegular, bold := some pathPBold,
                  italic := none, boldItalic := none } ∧
    (Fontpack.ctor sstateInit fooName treeDiscardCase).1.bold = pathPBold := by
  exact ⟨rfl, rfl⟩

/-- C8 counterexample: the traversal state is a process-wide global that the
constructor does not clear on entry: after resolving family Foo over the
fonts tree, a second resolution for family Bar over a tree containing no
files at all still observes the first resolution's candidates and succeeds,
returning the Foo Regular path instead of failing. -/
theorem second_resolution_observes_stale_state :
    (Fontpack.ctor sstateInit fooName treeFooOnly).1.regular = pathFontsFooRegular ∧
    (Fontpack.ctor (Fontpack.ctor sstateInit fooName treeFooOnly).1 barName
        treeOtherEmpty).2 =
      Except.ok { regular := pathFontsFooRegular, bold := none, italic := none,
                  boldItalic := none } ∧
    pathFontsFooRegular ≠ [] := by
  refine ⟨rfl, rfl, by decide⟩

/-- C8 (amended): the traversal bookkeeping lives in one process-wide
accumulator that is empty at program start, so the first resolution of a
process starts from empty state; but the constructor does not clear it on
entry (it assigns only the family name and its length), so the candidates,
committed extension and recorded depth of one resolution persist into and can
influence later resolutions. -/
theorem ctorEntry_preserves_prior_candidates :
    sstateInit.regular = [] ∧ sstateInit.bold = [] ∧ sstateInit.italic = [] ∧
    sstateInit.boldItalic = [] ∧ sstateInit.ext = [] ∧ sstateInit.level = 0 ∧
    ∀ (st : SearchState) (fn : List Char),
      (Fontpack.ctorEntry st fn).regular = st.regular ∧
      (Fontpack.ctorEntry st fn).bold = st.bold ∧
      (Fontpack.ctorEntry st fn).italic = st.italic ∧
      (Fontpack.ctorEntry st fn).boldItalic = st.boldItalic ∧
      (Fontpack.ctorEntry st fn).ext = st.ext ∧
      (Fontpack.ctorEntry st fn).level = st.level ∧
      (Fontpack.ctorEntry st fn).fontname = fn ∧
      (Fontpack.ctorEntry st fn).fontnamelen = fn.length := by
  exact ⟨rfl, rfl, rfl, rfl, rfl, rfl,
    fun st fn => ⟨rfl, rfl, rfl, rfl, rfl, rfl, rfl, rfl⟩⟩

/-- A dot-free string has no last dot. -/
theorem lastDotIdx_none (l : List Char) (h : '.' ∉ l) : lastDotIdx l = none := by
  induction l with
  | nil => rfl
  | cons c cs ih =>
      have hc : ¬ (c = '.') := fun hc => h (hc ▸ List.mem_cons_self c cs)
      have hcs : '.' ∉ cs := fun hm => h (List.mem_cons_of_mem c hm)
      simp [lastDotIdx, ih hcs, hc]

/-- The last dot of a string whose tail past some dot is dot-free is that
dot. -/
theorem lastDotIdx_append (xs l : List Char) (h : '.' ∉ l) :
    lastDotIdx (xs ++ '.' :: l) = some xs.length := by
  induction xs with
  | nil => simp [lastDotIdx, lastDotIdx_none l h]
  | cons c cs ih => simp [lastDotIdx, ih]

/-- Indexing an append at the length of the left part reads the head of the
right part. -/
theorem getD_append_len (l₁ l₂ : List Char) (d : Char) :
    (l₁ ++ l₂).getD l₁.length d = l₂.getD 0 d := by
  induction l₁ with
  | nil => rfl
  | cons c cs ih => simpa using ih

/-- Unfolding of extStart once the last dot index is known. -/
theorem extStart_eq (fname : List Char) (i : Nat) (h : lastDotIdx fname = some i) :
    extStart fname =
      if eqCI (fname.drop i) dotGz = true ∧ 0 < i then some (scanBack fname i)
      else some i := by
  unfold extStart
  rw [h]

/-- The backward walk started just past a dot-free segment that follows a dot
stops at that dot (or at the start of the string when the dot is there). -/
theorem scanBack_dot (base : List Char) :
    ∀ mid : List Char, '.' ∉ mid → ∀ rest : List Char,
      scanBack (base ++ '.' :: (mid ++ rest)) (base.length + mid.length + 1) =
        base.length := by
  intro mid
  induction mid using List.reverseRecOn with
  | nil =>
      intro _ rest
      simp only [List.nil_append, List.length_nil, Nat.add_zero]
      by_cases hb : base.length = 0
      · simp [scanBack, hb]
      · have hdot : (base ++ '.' :: rest).getD base.length ' ' = '.' := by
          rw [getD_append_len]
          rfl
        simp only [scanBack]
        rw [if_neg hb, if_pos hdot]
  | append_singleton ms c ih =>
      intro h rest
      have hms : '.' ∉ ms := fun hm => h (List.mem_append_left _ hm)
      have hc : ¬ (c = '.') := fun e => h (List.mem_append_right _ (by simp [e]))
      have hassoc : (ms ++ [c]) ++ rest = ms ++ c :: rest := by simp
      rw [hassoc]
      have hlen : base.length + (ms ++ [c]).length + 1 =
          (base.length + ms.length + 1) + 1 := by
        simp only [List.length_append, List.length_singleton]
        omega
      rw [hlen]
      have hgd : (base ++ '.' :: (ms ++ c :: rest)).getD (base.length + ms.length + 1) ' ' = c := by
        have hsplit : base ++ '.' :: (ms ++ c :: rest) = (base ++ '.' :: ms) ++ c :: rest := by
          simp
        have hl2 : base.length + ms.length + 1 = (base ++ '.' :: ms).length := by
          simp [List.length_append]
          omega
        rw [hsplit, hl2, getD_append_len]
        rfl
      have hi0 : ¬ (base.length + ms.length + 1 = 0) := by omega
      simp only [scanBack]
      rw [if_neg hi0, if_neg (by rw [hgd]; exact hc)]
      exact ih hms (c :: rest)

/-- C9: for every visited regular file the extension is taken as the final
dot-delimited suffix of the filename, except that a trailing case-insensitive
gz is merged with the preceding dot-delimited suffix into one compound
extension; and the filter ignores (leaves the state unchanged, continuing the
walk) any file whose extension does not case-insensitively equal one of ttf,
otf or pcf.gz (each with leading dots). -/
theorem extension_extraction_and_filter :
    (∀ base mid : List Char, '.' ∉ mid → eqCI ('.' :: mid) dotGz = false →
      extractExt (base ++ '.' :: mid) = some ('.' :: mid)) ∧
    (∀ base mid gz : List Char, '.' ∉ mid → gz.map lowerc = bodyGz →
      extractExt ((base ++ '.' :: mid) ++ '.' :: gz) =
        some (('.' :: mid) ++ '.' :: gz)) ∧
    (∀ (st : SearchState) (fpath fname : List Char) (level : Nat),
      extAccept fname = false → fontFileFilter st fpath fname ftwF level = (st, 0)) := by
  refine ⟨?_, ?_, ?_⟩
  · intro base mid hmid hgz
    unfold extractExt
    rw [extStart_eq _ _ (lastDotIdx_append base mid hmid), List.drop_left]
    rw [if_neg (fun hcon => by rw [hgz] at hcon; exact absurd hcon.1 (by simp))]
    simp [List.drop_left]
  · intro base mid gz hmid hgz
    have hdotgz : '.' ∉ gz := by
      intro hm
      have hmem : lowerc '.' ∈ gz.map lowerc := List.mem_map_of_mem lowerc hm
      rw [hgz] at hmem
      exact absurd hmem (by decide)
    have heq : eqCI ('.' :: gz) dotGz = true := by
      unfold eqCI
      rw [List.map_cons, hgz]
      decide
    have hpos : 0 < (base ++ '.' :: mid).length := by simp
    have hassoc : (base ++ '.' :: mid) ++ '.' :: gz = base ++ '.' :: (mid ++ '.' :: gz) := by
      simp
    have hlen : (base ++ '.' :: mid).length = base.length + mid.length + 1 := by
      simp [List.length_append]
      omega
    have hscan : scanBack ((base ++ '.' :: mid) ++ '.' :: gz) ((base ++ '.' :: mid)).length =
        base.length := by
      rw [hassoc, hlen]
      exact scanBack_dot base mid hmid ('.' :: gz)
    unfold extractExt
    rw [extStart_eq _ _ (lastDotIdx_append (base ++ '.' :: mid) gz hdotgz),
      List.drop_left]
    rw [if_pos ⟨heq, hpos⟩, Option.map_some', hscan, hassoc, List.drop_left]
    simp
  · intro st fpath fname level h
    unfold fontFileFilter
    rw [if_neg (fun hc => absurd hc.1 (by decide)),
      if_neg (fun hc => absurd hc.1 (by decide)),
      if_neg (fun hc => hc rfl)]
    cases hs : extStart fname with
    | none => simp [hs]
    | some i =>
        have hb : (eqCI (fname.drop i) extTtf || eqCI (fname.drop i) extOtf ||
            eqCI (fname.drop i) extPcfGz) = false := by
          unfold extAccept at h
          rw [hs] at h
          exact h
        obtain ⟨⟨hA, hB⟩, hC⟩ :
            (eqCI (fname.drop i) extTtf = false ∧ eqCI (fname.drop i) extOtf = false) ∧
              eqCI (fname.drop i) extPcfGz = false := by
          simpa [Bool.or_eq_false_iff] using hb
        simp only [hs]
        rw [if_pos]
        intro hor
        rcases hor with h1 | h2 | h3
        · rw [hA] at h1; exact absurd h1 (by simp)
        · rw [hB] at h2; exact absurd h2 (by simp)
        · rw [hC] at h3; exact absurd h3 (by simp)

/-- C9 witness: the name Go-Regular.ttf yields extension ttf (with dot); the
name Go-Regular.pcf.gz yields the compound extension pcf.gz (with dots), not
gz alone; and a file named x.xyz is ignored by the filter. -/
theorem extension_extraction_witness :
    extractExt (baseGoRegular ++ '.' :: bodyTtf) = some ('.' :: bodyTtf) ∧
    extractExt ((baseGoRegular ++ '.' :: bodyPcf) ++ '.' :: bodyGz) =
      some (('.' :: bodyPcf) ++ '.' :: bodyGz) ∧
    fontFileFilter sstateInit nameBadExt nameBadExt ftwF 1 = (sstateInit, 0) := by
  refine ⟨?_, ?_, ?_⟩
  · exact extension_extraction_and_filter.1 baseGoRegular bodyTtf (by decide) (by decide)
  · exact extension_extraction_and_filter.2.1 baseGoRegular bodyPcf bodyGz
      (by decide) (by decide)
  · exact extension_extraction_and_filter.2.2 sstateInit nameBadExt nameBadExt 1 (by decide)
